import Mathlib

/-!
Verification of the knot portfolio risk simulator.

This file gives a shallow embedding of the simulator's core:

* `RiskMetrics` and its validated construction
  (`src/simulator/data/risk_metrics.py`);
* the portfolio aggregation and risk-metric pipeline
  (`PortfolioProcessor` in `src/simulator/utils/processor.py`);
* the stress-test scenario computation
  (`StressTester` in `src/simulator/utils/processor.py`);
* the three stochastic path generators
  (`src/simulator/engine/monte_carlo.py`, `geometric_brownian.py`,
  `jump_diffusion.py`).

Floating-point numbers of the processor pipeline are modelled as rationals
(`ℚ`), which keeps every definition executable; the path generators use
`exp`/`log`/`sqrt` and are modelled over `ℝ`.  Randomness drawn from numpy's
generator is modelled by oracle arguments supplying the drawn values.
-/

namespace Knot

/-- The `RiskMetrics` pydantic value object of
`src/simulator/data/risk_metrics.py`: expected_return, median_return, var_95,
cvar_95, max_drawdown, volatility. -/
structure RiskMetrics where
  expected_return : ℚ
  median_return : ℚ
  var_95 : ℚ
  cvar_95 : ℚ
  max_drawdown : ℚ
  volatility : ℚ
  deriving Repr, DecidableEq

/-- Validated construction of `RiskMetrics`, mirroring pydantic validation of
`src/simulator/data/risk_metrics.py`; `none` models a raised `ValidationError`.
Checks, in source order:
* `check_realistic_bounds` field validator on `expected_return`, `var_95`,
  `max_drawdown` only: `abs(v) > 100.0` raises;
* `Field(..., le=0)` on `max_drawdown` and `Field(..., gt=0)` on `volatility`;
* `validate_risk_logic` model validator: `cvar_95 > var_95` raises (its second
  check, on `max_drawdown > var_95`, is a `pass` and has no effect).
`median_return` and `cvar_95` have no bounds check in the source. -/
def mkRiskMetrics (er mr v cv dd vol : ℚ) : Option RiskMetrics :=
  if 100 < |er| then none
  else if 100 < |v| then none
  else if 100 < |dd| then none
  else if 0 < dd then none
  else if vol ≤ 0 then none
  else if v < cv then none
  else some ⟨er, mr, v, cv, dd, vol⟩

theorem mkRiskMetrics_eq_some {er mr v cv dd vol : ℚ} {m : RiskMetrics}
    (h : mkRiskMetrics er mr v cv dd vol = some m) :
    |er| ≤ 100 ∧ |v| ≤ 100 ∧ |dd| ≤ 100 ∧ dd ≤ 0 ∧ 0 < vol ∧ cv ≤ v ∧
      m = ⟨er, mr, v, cv, dd, vol⟩ := by
  unfold mkRiskMetrics at h
  split_ifs at h with h1 h2 h3 h4 h5 h6
  push_neg at h1 h2 h3 h4 h5 h6
  exact ⟨h1, h2, h3, h4, h5, h6, (Option.some_injective _ h).symm⟩

theorem mkRiskMetrics_builds {er mr v cv dd vol : ℚ}
    (h1 : |er| ≤ 100) (h2 : |v| ≤ 100) (h3 : |dd| ≤ 100) (h4 : dd ≤ 0)
    (h5 : 0 < vol) (h6 : cv ≤ v) :
    mkRiskMetrics er mr v cv dd vol = some ⟨er, mr, v, cv, dd, vol⟩ := by
  unfold mkRiskMetrics
  split_ifs with g1 g2 g3 g4 g5 g6
  · exact absurd h1 (by linarith)
  · exact absurd h2 (by linarith)
  · exact absurd h3 (by linarith)
  · exact absurd h4 (by linarith)
  · exact absurd h5 (by linarith)
  · exact absurd h6 (by linarith)
  · rfl

/-- C1: a `RiskMetrics` record can only be constructed with
`cvar_95 ≤ var_95`, `max_drawdown ≤ 0` and `volatility > 0`; any violating
construction attempt yields a validation error instead of a metrics object. -/
theorem riskMetrics_construction_invariants (er mr v cv dd vol : ℚ)
    (m : RiskMetrics) (h : mkRiskMetrics er mr v cv dd vol = some m) :
    m.cvar_95 ≤ m.var_95 ∧ m.max_drawdown ≤ 0 ∧ 0 < m.volatility := by
  obtain ⟨-, -, -, h4, h5, h6, rfl⟩ := mkRiskMetrics_eq_some h
  exact ⟨h6, h4, h5⟩

/-- Witness for C1: a concrete successful construction, and the concrete
failure demanded by the claim (`cvar_95 = 1/10` with `var_95 = 1/20`). -/
theorem riskMetrics_construction_invariants_witness :
    ((⟨0, 0, 0, -1, -1/2, 1⟩ : RiskMetrics).cvar_95 ≤
        (⟨0, 0, 0, -1, -1/2, 1⟩ : RiskMetrics).var_95 ∧
      (⟨0, 0, 0, -1, -1/2, 1⟩ : RiskMetrics).max_drawdown ≤ 0 ∧
      0 < (⟨0, 0, 0, -1, -1/2, 1⟩ : RiskMetrics).volatility) ∧
    mkRiskMetrics 0 0 (1/20) (1/10) (-1/2) 1 = none :=
  ⟨riskMetrics_construction_invariants 0 0 0 (-1) (-1/2) 1 _
      (by norm_num [mkRiskMetrics, abs]),
    by norm_num [mkRiskMetrics, abs]⟩

/-- C2 counterexample: `median_return = 200` and `cvar_95 = -300` both lie far
outside `[-100, 100]`, yet construction succeeds, because the
`check_realistic_bounds` validator is applied only to `expected_return`,
`var_95` and `max_drawdown`. -/
theorem riskMetrics_bounds_counterexample :
    ∃ m : RiskMetrics, mkRiskMetrics 0 200 0 (-300) 0 1 = some m ∧
      100 < |m.median_return| ∧ 100 < |m.cvar_95| :=
  ⟨⟨0, 200, 0, -300, 0, 1⟩, by norm_num [mkRiskMetrics, abs],
    by norm_num [abs], by norm_num [abs]⟩

/-- C2 (amended): of the return-like fields, exactly `expected_return`,
`var_95` and `max_drawdown` are forced into `[-100, 100]` at construction;
`median_return` and `cvar_95` carry no such bound. -/
theorem riskMetrics_bounded_fields (er mr v cv dd vol : ℚ) (m : RiskMetrics)
    (h : mkRiskMetrics er mr v cv dd vol = some m) :
    |m.expected_return| ≤ 100 ∧ |m.var_95| ≤ 100 ∧ |m.max_drawdown| ≤ 100 := by
  obtain ⟨h1, h2, h3, -, -, -, rfl⟩ := mkRiskMetrics_eq_some h
  exact ⟨h1, h2, h3⟩

/-- Witness for the amended C2 at a concrete successful construction. -/
theorem riskMetrics_bounded_fields_witness :
    |(⟨1, 0, -2, -3, -1, 4⟩ : RiskMetrics).expected_return| ≤ 100 ∧
      |(⟨1, 0, -2, -3, -1, 4⟩ : RiskMetrics).var_95| ≤ 100 ∧
      |(⟨1, 0, -2, -3, -1, 4⟩ : RiskMetrics).max_drawdown| ≤ 100 :=
  riskMetrics_bounded_fields 1 0 (-2) (-3) (-1) 4 _
    (by norm_num [mkRiskMetrics, abs])

/-- Arithmetic mean, as `np.mean` / pandas `.mean()` (sum divided by length). -/
def npMean (xs : List ℚ) : ℚ := xs.sum / xs.length

/-- Ascending sort of the data, as performed internally by `np.percentile` and
`np.median`. -/
def sortAsc (xs : List ℚ) : List ℚ := List.insertionSort (· ≤ ·) xs

/-- `np.percentile(xs, q)` with the default linear interpolation between order
statistics: on the ascending sort `s`, the virtual index is
`h = q/100 * (len - 1)`; the result interpolates between `s[floor h]` and the
next order statistic (which is clamped to `s[floor h]` at the top end, where
the interpolation weight is zero anyway). -/
def npPercentile (xs : List ℚ) (q : ℚ) : ℚ :=
  let s := sortAsc xs
  let h := q / 100 * ((s.length : ℚ) - 1)
  let i := (⌊h⌋).toNat
  s.getD i 0 + (h - (i : ℚ)) * (s.getD (i + 1) (s.getD i 0) - s.getD i 0)

/-- `np.median`: middle order statistic, or the mean of the two middle order
statistics for an even-length sample. -/
def npMedian (xs : List ℚ) : ℚ :=
  let s := sortAsc xs
  if s.length % 2 = 1 then s.getD (s.length / 2) 0
  else (s.getD (s.length / 2 - 1) 0 + s.getD (s.length / 2) 0) / 2

/-- Population variance (`ddof = 0`), the square of `np.std`.  The source
stores `volatility = np.std(final_returns)`; downstream the only constraint on
volatility is strict positivity, and `sqrt` preserves strict positivity, so
the variance is the rational stand-in for the (irrational) standard
deviation. -/
def npVariancePop (xs : List ℚ) : ℚ :=
  npMean (xs.map (fun x => (x - npMean xs) ^ 2))

/-- `np.min` over a flattened nonempty sample (`0` as junk value on `[]`,
where numpy raises). -/
def npMin : List ℚ → ℚ
  | [] => 0
  | x :: xs => xs.foldl min x

/-- `np.max` counterpart of `npMin`. -/
def npMax : List ℚ → ℚ
  | [] => 0
  | x :: xs => xs.foldl max x

/-- Tail of `np.maximum.accumulate` with a running maximum `acc` already
accumulated. -/
def cummaxFrom (acc : ℚ) : List ℚ → List ℚ
  | [] => []
  | x :: xs => max acc x :: cummaxFrom (max acc x) xs

/-- `np.maximum.accumulate` along one row: the running maximum (peak) up to
each position. -/
def cummax : List ℚ → List ℚ
  | [] => []
  | x :: xs => x :: cummaxFrom x xs

/-- `final_returns = portfolio_paths[:, -1] - 1`, one entry per simulation. -/
def finalReturns (paths : List (List ℚ)) : List ℚ :=
  paths.map (fun row => row.getLastD 0 - 1)

/-- `drawdowns = (portfolio_paths - peak) / peak` with
`peak = np.maximum.accumulate(portfolio_paths, axis=1)`. -/
def drawdowns (paths : List (List ℚ)) : List (List ℚ) :=
  paths.map (fun row => List.zipWith (fun v p => (v - p) / p) row (cummax row))

/-- `PortfolioProcessor.calculate_risk_metrics` of
`src/simulator/utils/processor.py`.  The leading guard models the numpy
errors raised on an empty simulation axis (`np.percentile` of an empty
sample) or an empty day axis (`portfolio_paths[:, -1]`).  `none` also models
the pydantic `ValidationError` raised by the final `RiskMetrics(...)` call. -/
def calculateRiskMetrics (paths : List (List ℚ)) (cl : ℚ) : Option RiskMetrics :=
  if paths.isEmpty ∨ paths.any (·.isEmpty) then none
  else
    let fr := finalReturns paths
    let var := npPercentile fr ((1 - cl) * 100)
    let low := fr.filter (fun r => r ≤ var)
    let cvar := if low.isEmpty then var else npMean low
    let maxDD := npMin (drawdowns paths).flatten
    mkRiskMetrics (npMean fr) (npMedian fr) var cvar maxDD (npVariancePop fr)

theorem foldl_min_le_init (l : List ℚ) (x : ℚ) : l.foldl min x ≤ x := by
  induction l generalizing x with
  | nil => exact le_refl x
  | cons y ys ih => exact le_trans (ih (min x y)) (min_le_left x y)

theorem foldl_min_le_mem {l : List ℚ} {a : ℚ} (ha : a ∈ l) (x : ℚ) :
    l.foldl min x ≤ a := by
  induction l generalizing x with
  | nil => cases ha
  | cons y ys ih =>
    rcases List.mem_cons.mp ha with rfl | ha2
    · exact le_trans (foldl_min_le_init ys (min x a)) (min_le_right x a)
    · exact ih ha2 (min x y)

theorem foldl_min_mem (l : List ℚ) (x : ℚ) :
    l.foldl min x = x ∨ l.foldl min x ∈ l := by
  induction l generalizing x with
  | nil => exact Or.inl rfl
  | cons y ys ih =>
    rcases ih (min x y) with h | h
    · rcases min_cases x y with ⟨he, -⟩ | ⟨he, -⟩
      · exact Or.inl (by rw [List.foldl_cons, h, he])
      · exact Or.inr (by rw [List.foldl_cons, h, he]; exact List.mem_cons_self y ys)
    · exact Or.inr (List.mem_cons_of_mem y h)

theorem npMin_le {l : List ℚ} {a : ℚ} (ha : a ∈ l) : npMin l ≤ a := by
  cases l with
  | nil => cases ha
  | cons x xs =>
    rcases List.mem_cons.mp ha with rfl | ha2
    · exact foldl_min_le_init xs a
    · exact foldl_min_le_mem ha2 x

theorem npMin_mem {l : List ℚ} (h : l ≠ []) : npMin l ∈ l := by
  cases l with
  | nil => exact absurd rfl h
  | cons x xs =>
    rcases foldl_min_mem xs x with h2 | h2
    · show xs.foldl min x ∈ x :: xs
      rw [h2]; exact List.mem_cons_self x xs
    · exact List.mem_cons_of_mem x h2

theorem foldl_max_init_le (l : List ℚ) (x : ℚ) : x ≤ l.foldl max x := by
  induction l generalizing x with
  | nil => exact le_refl x
  | cons y ys ih => exact le_trans (le_max_left x y) (ih (max x y))

theorem foldl_max_mem_le {l : List ℚ} {a : ℚ} (ha : a ∈ l) (x : ℚ) :
    a ≤ l.foldl max x := by
  induction l generalizing x with
  | nil => cases ha
  | cons y ys ih =>
    rcases List.mem_cons.mp ha with rfl | ha2
    · exact le_trans (le_max_right x a) (foldl_max_init_le ys (max x a))
    · exact ih ha2 (max x y)

theorem foldl_max_mem (l : List ℚ) (x : ℚ) :
    l.foldl max x = x ∨ l.foldl max x ∈ l := by
  induction l generalizing x with
  | nil => exact Or.inl rfl
  | cons y ys ih =>
    rcases ih (max x y) with h | h
    · rcases max_cases x y with ⟨he, -⟩ | ⟨he, -⟩
      · exact Or.inl (by rw [List.foldl_cons, h, he])
      · exact Or.inr (by rw [List.foldl_cons, h, he]; exact List.mem_cons_self y ys)
    · exact Or.inr (List.mem_cons_of_mem y h)

theorem le_npMax {l : List ℚ} {a : ℚ} (ha : a ∈ l) : a ≤ npMax l := by
  cases l with
  | nil => cases ha
  | cons x xs =>
    rcases List.mem_cons.mp ha with rfl | ha2
    · exact foldl_max_init_le xs a
    · exact foldl_max_mem_le ha2 x

theorem npMax_mem {l : List ℚ} (h : l ≠ []) : npMax l ∈ l := by
  cases l with
  | nil => exact absurd rfl h
  | cons x xs =>
    rcases foldl_max_mem xs x with h2 | h2
    · show xs.foldl max x ∈ x :: xs
      rw [h2]; exact List.mem_cons_self x xs
    · exact List.mem_cons_of_mem x h2

theorem sortAsc_sorted (xs : List ℚ) : (sortAsc xs).Sorted (· ≤ ·) :=
  List.sorted_insertionSort (· ≤ ·) xs

theorem sortAsc_perm (xs : List ℚ) : List.Perm (sortAsc xs) xs :=
  List.perm_insertionSort (· ≤ ·) xs

theorem sortAsc_length (xs : List ℚ) : (sortAsc xs).length = xs.length :=
  List.length_insertionSort (· ≤ ·) xs

theorem sortAsc_mem {xs : List ℚ} {a : ℚ} : a ∈ sortAsc xs ↔ a ∈ xs :=
  List.mem_insertionSort (· ≤ ·)

theorem sorted_getD_mono {s : List ℚ} (hs : s.Sorted (· ≤ ·)) {i j : ℕ}
    (hij : i ≤ j) (hj : j < s.length) : s.getD i 0 ≤ s.getD j 0 := by
  rw [List.getD_eq_get s 0 (lt_of_le_of_lt hij hj), List.getD_eq_get s 0 hj]
  exact hs.rel_get_of_le (by exact hij)

/-- The linearly interpolated percentile of a nonempty sample, for
`0 ≤ q ≤ 100`, lies between the smallest and the largest order statistic. -/
theorem npPercentile_bounds (xs : List ℚ) (q : ℚ) (hne : xs ≠ [])
    (h0 : 0 ≤ q) (h1 : q ≤ 100) :
    (sortAsc xs).getD 0 0 ≤ npPercentile xs q ∧
      npPercentile xs q ≤ npMax xs := by
  have hs := sortAsc_sorted xs
  have hn : 0 < (sortAsc xs).length := by
    rw [sortAsc_length]; exact List.length_pos.mpr hne
  set s := sortAsc xs with hsdef
  set n := s.length with hndef
  have hn1 : (1 : ℚ) ≤ (n : ℚ) := by exact_mod_cast hn
  set h := q / 100 * ((n : ℚ) - 1) with hhdef
  have hh0 : 0 ≤ h := by
    apply mul_nonneg (div_nonneg h0 (by norm_num))
    linarith
  have hh1 : h ≤ (n : ℚ) - 1 := by
    have hq : q / 100 ≤ 1 := by
      rw [div_le_one (by norm_num : (0:ℚ) < 100)]; exact h1
    calc q / 100 * ((n : ℚ) - 1) ≤ 1 * ((n : ℚ) - 1) := by
          apply mul_le_mul_of_nonneg_right hq; linarith
      _ = (n : ℚ) - 1 := one_mul _
  set i := (⌊h⌋).toNat with hidef
  have hicast : (i : ℚ) = ((⌊h⌋ : ℤ) : ℚ) := by
    rw [hidef]
    exact_mod_cast congrArg (fun z : ℤ => (z : ℚ))
      (Int.toNat_of_nonneg (Int.floor_nonneg.mpr hh0))
  have hile : (i : ℚ) ≤ h := by rw [hicast]; exact Int.floor_le h
  have hfrac0 : 0 ≤ h - (i : ℚ) := by linarith
  have hfrac1 : h - (i : ℚ) ≤ 1 := by
    have := Int.lt_floor_add_one h
    rw [hicast]; push_cast at this ⊢; linarith
  have hin : i < n := by
    have : (i : ℚ) < (n : ℚ) := by linarith
    exact_mod_cast this
  have hmem_i : s.getD i 0 ∈ xs := by
    apply sortAsc_mem.mp
    rw [← hsdef, List.getD_eq_getElem s 0 hin]
    exact List.getElem_mem _
  have hmem_0 : s.getD 0 0 ∈ xs := by
    apply sortAsc_mem.mp
    rw [← hsdef, List.getD_eq_getElem s 0 hn]
    exact List.getElem_mem _
  have h0i : s.getD 0 0 ≤ s.getD i 0 := sorted_getD_mono hs (Nat.zero_le i) hin
  show s.getD 0 0 ≤ s.getD i 0 + (h - (i : ℚ)) * (s.getD (i+1) (s.getD i 0) - s.getD i 0) ∧
    s.getD i 0 + (h - (i : ℚ)) * (s.getD (i+1) (s.getD i 0) - s.getD i 0) ≤ npMax xs
  by_cases hcase : i + 1 < n
  · have hb : s.getD (i+1) (s.getD i 0) = s.getD (i+1) 0 := by
      rw [List.getD_eq_getElem s _ hcase, List.getD_eq_getElem s 0 hcase]
    have hab : s.getD i 0 ≤ s.getD (i+1) 0 :=
      sorted_getD_mono hs (Nat.le_succ i) hcase
    have hmem_i1 : s.getD (i+1) 0 ∈ xs := by
      apply sortAsc_mem.mp
      rw [← hsdef, List.getD_eq_getElem s 0 hcase]
      exact List.getElem_mem _
    constructor
    · rw [hb]
      nlinarith [mul_nonneg hfrac0 (sub_nonneg.mpr hab)]
    · rw [hb]
      have hbmax : s.getD (i+1) 0 ≤ npMax xs := le_npMax hmem_i1
      nlinarith [mul_nonneg (sub_nonneg.mpr hfrac1) (sub_nonneg.mpr hab)]
  · have hb : s.getD (i+1) (s.getD i 0) = s.getD i 0 :=
      List.getD_eq_default s _ (Nat.le_of_not_lt hcase)
    rw [hb]
    have hmax : s.getD i 0 ≤ npMax xs := le_npMax hmem_i
    constructor
    · nlinarith
    · nlinarith

theorem sortAsc_head_mem {xs : List ℚ} (hne : xs ≠ []) :
    (sortAsc xs).getD 0 0 ∈ xs := by
  have hn : 0 < (sortAsc xs).length := by
    rw [sortAsc_length]; exact List.length_pos.mpr hne
  apply sortAsc_mem.mp
  rw [List.getD_eq_getElem _ 0 hn]
  exact List.getElem_mem _

theorem npMean_le {l : List ℚ} {c : ℚ} (hne : l ≠ []) (h : ∀ x ∈ l, x ≤ c) :
    npMean l ≤ c := by
  have hlen : 0 < (l.length : ℚ) := by
    exact_mod_cast List.length_pos.mpr hne
  rw [npMean, div_le_iff hlen]
  calc l.sum ≤ l.length • c := List.sum_le_card_nsmul l c h
    _ = c * l.length := by rw [nsmul_eq_mul]; ring

/-- Destructuring a successful `calculate_risk_metrics` call into the values
the source computes for each field. -/
theorem calculateRiskMetrics_some {paths : List (List ℚ)} {cl : ℚ}
    {m : RiskMetrics} (h : calculateRiskMetrics paths cl = some m) :
    paths ≠ [] ∧ (∀ row ∈ paths, row ≠ []) ∧
      m = ⟨npMean (finalReturns paths), npMedian (finalReturns paths),
        npPercentile (finalReturns paths) ((1 - cl) * 100),
        (if ((finalReturns paths).filter
              (fun r => r ≤ npPercentile (finalReturns paths) ((1 - cl) * 100))).isEmpty
          then npPercentile (finalReturns paths) ((1 - cl) * 100)
          else npMean ((finalReturns paths).filter
              (fun r => r ≤ npPercentile (finalReturns paths) ((1 - cl) * 100)))),
        npMin (drawdowns paths).flatten, npVariancePop (finalReturns paths)⟩ := by
  unfold calculateRiskMetrics at h
  by_cases hguard : (paths.isEmpty ∨ paths.any (·.isEmpty))
  · rw [if_pos hguard] at h; cases h
  · rw [if_neg hguard] at h
    simp only [] at h
    push_neg at hguard
    obtain ⟨hg1, hg2⟩ := hguard
    obtain ⟨-, -, -, -, -, -, rfl⟩ := mkRiskMetrics_eq_some h
    refine ⟨?_, ?_, rfl⟩
    · intro hnil
      exact hg1 (by simp [hnil])
    · intro row hrow hnil
      apply hg2
      simp only [List.any_eq_true]
      exact ⟨row, hrow, by simp [hnil]⟩

/-- C3: for a nonempty path matrix and a confidence level in `(0,1)`, the
`var` computed by `calculate_risk_metrics` is the `(1 - confidence_level)`-th
linearly interpolated percentile of the final returns, and the `cvar` is the
mean of the final returns at or below `var`, falling back to `var` itself when
no final return is `≤ var`. -/
theorem calculateRiskMetrics_var_cvar (paths : List (List ℚ)) (cl : ℚ)
    (m : RiskMetrics) (hne : paths ≠ []) (hcl0 : 0 < cl) (hcl1 : cl < 1)
    (h : calculateRiskMetrics paths cl = some m) :
    m.var_95 = npPercentile (finalReturns paths) ((1 - cl) * 100) ∧
      ((∃ r ∈ finalReturns paths, r ≤ m.var_95) →
        m.cvar_95 = npMean ((finalReturns paths).filter (fun r => r ≤ m.var_95))) ∧
      ((∀ r ∈ finalReturns paths, ¬ r ≤ m.var_95) → m.cvar_95 = m.var_95) := by
  obtain ⟨-, -, rfl⟩ := calculateRiskMetrics_some h
  refine ⟨rfl, ?_, ?_⟩
  · intro hex
    show (if _ then _ else _) = _
    rw [if_neg]
    simp only [List.isEmpty_iff, List.filter_eq_nil_iff, not_forall]
    obtain ⟨r, hr, hrle⟩ := hex
    exact ⟨r, hr, by simpa using hrle⟩
  · intro hall
    show (if _ then _ else _) = _
    rw [if_pos]
    simp only [List.isEmpty_iff, List.filter_eq_nil_iff]
    intro r hr
    simpa using hall r hr

theorem cummaxFrom_length (acc : ℚ) (l : List ℚ) :
    (cummaxFrom acc l).length = l.length := by
  induction l generalizing acc with
  | nil => rfl
  | cons x xs ih => simp [cummaxFrom, ih]

theorem cummax_length (l : List ℚ) : (cummax l).length = l.length := by
  cases l with
  | nil => rfl
  | cons x xs => simp [cummax, cummaxFrom_length]

theorem foldl_max_assoc (l : List ℚ) (a b : ℚ) :
    l.foldl max (max a b) = max a (l.foldl max b) := by
  induction l generalizing b with
  | nil => rfl
  | cons y ys ih => rw [List.foldl_cons, List.foldl_cons, max_assoc, ih]

theorem npMax_cons {l : List ℚ} (hl : l ≠ []) (x : ℚ) :
    npMax (x :: l) = max x (npMax l) := by
  cases l with
  | nil => exact absurd rfl hl
  | cons y ys => show ys.foldl max (max x y) = _; rw [foldl_max_assoc]; rfl

theorem cummaxFrom_getD (acc : ℚ) (l : List ℚ) (d : ℕ) (hd : d < l.length) :
    (cummaxFrom acc l).getD d 0 = max acc (npMax (l.take (d + 1))) := by
  induction l generalizing acc d with
  | nil => cases hd
  | cons x xs ih =>
    cases d with
    | zero => rfl
    | succ d2 =>
      have hd2 : d2 < xs.length := Nat.lt_of_succ_lt_succ hd
      have hxs : xs.take (d2 + 1) ≠ [] := by
        have : (xs.take (d2 + 1)).length = d2 + 1 := by
          rw [List.length_take]; omega
        intro hnil; rw [hnil] at this; cases this
      show (cummaxFrom (max acc x) xs).getD d2 0 = _
      rw [ih (max acc x) d2 hd2, List.take_succ_cons,
        npMax_cons hxs x, max_assoc]

theorem cummax_getD (l : List ℚ) (d : ℕ) (hd : d < l.length) :
    (cummax l).getD d 0 = npMax (l.take (d + 1)) := by
  cases l with
  | nil => cases hd
  | cons x xs =>
    cases d with
    | zero => rfl
    | succ d2 =>
      have hd2 : d2 < xs.length := Nat.lt_of_succ_lt_succ hd
      have hxs : xs.take (d2 + 1) ≠ [] := by
        have : (xs.take (d2 + 1)).length = d2 + 1 := by
          rw [List.length_take]; omega
        intro hnil; rw [hnil] at this; cases this
      show (cummaxFrom x xs).getD d2 0 = _
      rw [cummaxFrom_getD x xs d2 hd2, List.take_succ_cons, npMax_cons hxs x]

theorem zipWith_eq_range_map (f : ℚ → ℚ → ℚ) (l1 l2 : List ℚ)
    (h : l1.length = l2.length) :
    List.zipWith f l1 l2 =
      (List.range l1.length).map (fun d => f (l1.getD d 0) (l2.getD d 0)) := by
  induction l1 generalizing l2 with
  | nil => rfl
  | cons x xs ih =>
    cases l2 with
    | nil => cases h
    | cons y ys =>
      have h2 : xs.length = ys.length := Nat.succ_injective h
      simp only [List.zipWith_cons_cons, List.length_cons,
        List.range_succ_eq_map, List.map_cons, List.map_map]
      rw [ih ys h2]
      refine congrArg₂ List.cons rfl ?_
      apply List.map_congr_left
      intro d hd
      simp [Function.comp, List.getD_cons_succ]

/-- C4: the `max_drawdown` field of a successful `calculate_risk_metrics`
call is the minimum, over all simulations and days, of
`(value - peak) / peak`, where `peak` is the running maximum of that path up
to that day: the single worst (day, simulation) drawdown of the whole matrix,
not an average of per-path worst drawdowns. -/
theorem calculateRiskMetrics_maxDrawdown (paths : List (List ℚ)) (cl : ℚ)
    (m : RiskMetrics) (hpos : ∀ row ∈ paths, ∀ v ∈ row, 0 < v)
    (h : calculateRiskMetrics paths cl = some m) :
    m.max_drawdown = npMin ((paths.map (fun row =>
      (List.range row.length).map (fun d =>
        (row.getD d 0 - npMax (row.take (d + 1))) /
          npMax (row.take (d + 1))))).flatten) := by
  obtain ⟨-, -, rfl⟩ := calculateRiskMetrics_some h
  show npMin (drawdowns paths).flatten = _
  have hdd : drawdowns paths = paths.map (fun row =>
      (List.range row.length).map (fun d =>
        (row.getD d 0 - npMax (row.take (d + 1))) /
          npMax (row.take (d + 1)))) := by
    unfold drawdowns
    apply List.map_congr_left
    intro row hrow
    rw [zipWith_eq_range_map _ row (cummax row) (cummax_length row).symm]
    apply List.map_congr_left
    intro d hd
    rw [cummax_getD row d (List.mem_range.mp hd)]
  rw [hdd]

/-- C10: for a nonempty path matrix and a confidence level in `(0,1)`, the
percentile used for VaR lies between the minimum and maximum final return, so
at least one final return is `≤ var`; hence the CVaR fallback branch is
unreachable, the computed `cvar_95` is the mean of a nonempty set of final
returns each `≤ var`, and every successfully computed metrics object
satisfies `cvar_95 ≤ var_95` by construction. -/
theorem cvar_fallback_unreachable (paths : List (List ℚ)) (cl : ℚ)
    (hne : paths ≠ []) (hrows : ∀ row ∈ paths, row ≠ [])
    (hcl0 : 0 < cl) (hcl1 : cl < 1) :
    npMin (finalReturns paths) ≤
        npPercentile (finalReturns paths) ((1 - cl) * 100) ∧
      npPercentile (finalReturns paths) ((1 - cl) * 100) ≤
        npMax (finalReturns paths) ∧
      (∃ r ∈ finalReturns paths,
        r ≤ npPercentile (finalReturns paths) ((1 - cl) * 100)) ∧
      (finalReturns paths).filter
          (fun r => r ≤ npPercentile (finalReturns paths) ((1 - cl) * 100)) ≠ [] ∧
      (∀ m : RiskMetrics, calculateRiskMetrics paths cl = some m →
        m.cvar_95 = npMean ((finalReturns paths).filter
            (fun r => r ≤ npPercentile (finalReturns paths) ((1 - cl) * 100))) ∧
          m.cvar_95 ≤ m.var_95) := by
  have hfne : finalReturns paths ≠ [] := by
    intro hnil
    apply hne
    unfold finalReturns at hnil
    exact List.map_eq_nil.mp hnil
  have hq0 : 0 ≤ (1 - cl) * 100 := by nlinarith
  have hq1 : (1 - cl) * 100 ≤ 100 := by nlinarith
  obtain ⟨hlow, hhigh⟩ :=
    npPercentile_bounds (finalReturns paths) ((1 - cl) * 100) hfne hq0 hq1
  have hheadmem := sortAsc_head_mem hfne
  have hex : ∃ r ∈ finalReturns paths,
      r ≤ npPercentile (finalReturns paths) ((1 - cl) * 100) :=
    ⟨(sortAsc (finalReturns paths)).getD 0 0, hheadmem, hlow⟩
  have hfilter : (finalReturns paths).filter
      (fun r => r ≤ npPercentile (finalReturns paths) ((1 - cl) * 100)) ≠ [] := by
    simp only [ne_eq, List.filter_eq_nil_iff, not_forall]
    obtain ⟨r, hr, hrle⟩ := hex
    exact ⟨r, hr, by simpa using hrle⟩
  refine ⟨le_trans (npMin_le hheadmem) hlow, hhigh, hex, hfilter, ?_⟩
  intro m hm
  obtain ⟨-, -, rfl⟩ := calculateRiskMetrics_some hm
  have hif : ((finalReturns paths).filter
      (fun r => r ≤ npPercentile (finalReturns paths) ((1 - cl) * 100))).isEmpty
        = false := by
    simp only [List.isEmpty_eq_false_iff_exists_mem]
    obtain ⟨r, hr, hrle⟩ := hex
    exact ⟨r, List.mem_filter.mpr ⟨hr, by simpa using hrle⟩⟩
  constructor
  · show (if _ then _ else _) = _
    rw [if_neg (by simp [hif])]
  · show (if _ then _ else _) ≤ _
    rw [if_neg (by simp [hif])]
    show npMean _ ≤ npPercentile (finalReturns paths) ((1 - cl) * 100)
    apply npMean_le hfilter
    intro x hx
    exact of_decide_eq_true (List.mem_filter.mp hx).2

/-- Witness for C3 on the concrete path matrix `[[1, 2], [1, 1/2]]` at the
default confidence level `0.95`. -/
theorem calculateRiskMetrics_var_cvar_witness :
    (⟨1/4, 1/4, -17/40, -1/2, -1/2, 9/16⟩ : RiskMetrics).var_95 =
        npPercentile (finalReturns [[1, 2], [1, 1/2]]) ((1 - 19/20) * 100) ∧
      ((∃ r ∈ finalReturns [[1, 2], [1, 1/2]],
          r ≤ (⟨1/4, 1/4, -17/40, -1/2, -1/2, 9/16⟩ : RiskMetrics).var_95) →
        (⟨1/4, 1/4, -17/40, -1/2, -1/2, 9/16⟩ : RiskMetrics).cvar_95 =
          npMean ((finalReturns [[1, 2], [1, 1/2]]).filter
            (fun r => r ≤ (⟨1/4, 1/4, -17/40, -1/2, -1/2, 9/16⟩ : RiskMetrics).var_95))) ∧
      ((∀ r ∈ finalReturns [[1, 2], [1, 1/2]],
          ¬ r ≤ (⟨1/4, 1/4, -17/40, -1/2, -1/2, 9/16⟩ : RiskMetrics).var_95) →
        (⟨1/4, 1/4, -17/40, -1/2, -1/2, 9/16⟩ : RiskMetrics).cvar_95 =
          (⟨1/4, 1/4, -17/40, -1/2, -1/2, 9/16⟩ : RiskMetrics).var_95) :=
  calculateRiskMetrics_var_cvar [[1, 2], [1, 1/2]] (19/20) _
    (by simp) (by norm_num) (by norm_num)
    (by norm_num [calculateRiskMetrics, finalReturns, npPercentile, npMean,
      npMedian, npVariancePop, npMin, drawdowns, cummax, cummaxFrom, sortAsc,
      List.insertionSort, List.orderedInsert, mkRiskMetrics, abs, List.filter])

/-- Witness for C4 on the same concrete path matrix. -/
theorem calculateRiskMetrics_maxDrawdown_witness :
    (⟨1/4, 1/4, -17/40, -1/2, -1/2, 9/16⟩ : RiskMetrics).max_drawdown =
      npMin (((([[1, 2], [1, 1/2]] : List (List ℚ))).map (fun row =>
        (List.range row.length).map (fun d =>
          (row.getD d 0 - npMax (row.take (d + 1))) /
            npMax (row.take (d + 1))))).flatten) :=
  calculateRiskMetrics_maxDrawdown [[1, 2], [1, 1/2]] (19/20) _
    (by intro row hrow v hv; fin_cases hrow <;> fin_cases hv <;> norm_num)
    (by norm_num [calculateRiskMetrics, finalReturns, npPercentile, npMean,
      npMedian, npVariancePop, npMin, drawdowns, cummax, cummaxFrom, sortAsc,
      List.insertionSort, List.orderedInsert, mkRiskMetrics, abs, List.filter])

/-- Witness for C10 on the same concrete path matrix. -/
theorem cvar_fallback_unreachable_witness :
    npMin (finalReturns [[1, 2], [1, 1/2]]) ≤
        npPercentile (finalReturns [[1, 2], [1, 1/2]]) ((1 - 19/20) * 100) ∧
      npPercentile (finalReturns [[1, 2], [1, 1/2]]) ((1 - 19/20) * 100) ≤
        npMax (finalReturns [[1, 2], [1, 1/2]]) ∧
      (∃ r ∈ finalReturns [[1, 2], [1, 1/2]],
        r ≤ npPercentile (finalReturns [[1, 2], [1, 1/2]]) ((1 - 19/20) * 100)) ∧
      (finalReturns [[1, 2], [1, 1/2]]).filter
          (fun r => r ≤ npPercentile (finalReturns [[1, 2], [1, 1/2]])
            ((1 - 19/20) * 100)) ≠ [] ∧
      (∀ m : RiskMetrics,
        calculateRiskMetrics [[1, 2], [1, 1/2]] (19/20) = some m →
        m.cvar_95 = npMean ((finalReturns [[1, 2], [1, 1/2]]).filter
            (fun r => r ≤ npPercentile (finalReturns [[1, 2], [1, 1/2]])
              ((1 - 19/20) * 100))) ∧
          m.cvar_95 ≤ m.var_95) :=
  cvar_fallback_unreachable [[1, 2], [1, 1/2]] (19/20)
    (by simp) (by intro row hrow; fin_cases hrow <;> simp)
    (by norm_num) (by norm_num)

/-- `np.isclose(a, b)` with numpy's default tolerances:
`|a - b| <= atol + rtol * |b|`, `rtol = 1e-5`, `atol = 1e-8`. -/
def npIsClose (a b : ℚ) : Bool :=
  |a - b| ≤ 1 / 100000000 + 1 / 100000 * |b|

/-- `PortfolioProcessor.__init__` of `src/simulator/utils/processor.py`:
rejects a ticker/weight cardinality mismatch (`ValueError`, modelled as
`none`), then normalizes the weights by their sum when the sum is not
`np.isclose` to 1. -/
def initWeights (tickers : List String) (weights : List ℚ) : Option (List ℚ) :=
  if tickers.length ≠ weights.length then none
  else if ¬ npIsClose weights.sum 1 then
    some (weights.map (fun w => w / weights.sum))
  else some weights

/-- `PortfolioProcessor.get_portfolio_paths`: `np.dot(sim_results, weights)`,
the weighted sum across the asset axis of the (sims, days, assets) tensor. -/
def getPortfolioPaths (sim : List (List (List ℚ))) (w : List ℚ) :
    List (List ℚ) :=
  sim.map (fun path => path.map (fun day =>
    (List.zipWith (fun x wa => x * wa) day w).sum))

theorem getD_map_div (l : List ℚ) (c : ℚ) (i : ℕ) :
    (l.map (fun w => w / c)).getD i 0 = l.getD i 0 / c := by
  induction l generalizing i with
  | nil => simp
  | cons x xs ih =>
    cases i with
    | zero => rfl
    | succ j => exact ih j

theorem getD_map_lt {α β : Type} (f : α → β) (l : List α) (d : α) (db : β)
    (i : ℕ) (h : i < l.length) : (l.map f).getD i db = f (l.getD i d) := by
  rw [List.getD_eq_getElem _ _ (by simpa using h), List.getElem_map,
    List.getD_eq_getElem _ _ h]

theorem zipWith_sum_eq_range {α β : Type} (f : α → β → ℚ) (xs : List α)
    (ys : List β) (dx : α) (dy : β) (h : xs.length = ys.length)
    (hd : f dx dy = 0) :
    (List.zipWith f xs ys).sum =
      ∑ i ∈ Finset.range xs.length, f (xs.getD i dx) (ys.getD i dy) := by
  induction xs generalizing ys with
  | nil => simp
  | cons x xs2 ih =>
    cases ys with
    | nil => cases h
    | cons y ys2 =>
      have h2 : xs2.length = ys2.length := Nat.succ_injective h
      rw [List.zipWith_cons_cons, List.sum_cons, ih ys2 h2,
        List.length_cons, Finset.sum_range_succ']
      simp [List.getD_cons_succ, List.getD_cons_zero, add_comm]

theorem sum_map_div (l : List ℚ) (c : ℚ) :
    (l.map (fun w => w / c)).sum = l.sum / c := by
  induction l with
  | nil => simp
  | cons x xs ih => simp [ih, add_div]

/-- C7: with matching cardinalities and a nonzero weight sum, the processor
accepts the weights; weights summing exactly to 1 are used unchanged; weights
not `np.isclose` to 1 are rescaled to sum to exactly 1; in every accepted
case the used weights sum to 1 within numpy's closeness tolerance; and
`get_portfolio_paths` returns, at every (simulation, day), the weighted sum
of the tensor entries across the asset axis under the accepted weights. -/
theorem portfolioProcessor_normalizes (tickers : List String)
    (weights : List ℚ) (T : List (List (List ℚ)))
    (hlen : tickers.length = weights.length) (hsum : weights.sum ≠ 0)
    (hT : ∀ path ∈ T, ∀ day ∈ path, day.length = weights.length) :
    ∃ w', initWeights tickers weights = some w' ∧
      (weights.sum = 1 → w' = weights) ∧
      (npIsClose weights.sum 1 = false → w'.sum = 1) ∧
      |w'.sum - 1| ≤ 1 / 100000000 + 1 / 100000 ∧
      (∀ s d, ((getPortfolioPaths T w').getD s []).getD d 0 =
        ∑ a ∈ Finset.range weights.length,
          ((T.getD s []).getD d []).getD a 0 * w'.getD a 0) := by
  have hlen2 : ¬ tickers.length ≠ weights.length := not_not.mpr hlen
  have hdot : ∀ w' : List ℚ, w'.length = weights.length →
      ∀ s d, ((getPortfolioPaths T w').getD s []).getD d 0 =
        ∑ a ∈ Finset.range weights.length,
          ((T.getD s []).getD d []).getD a 0 * w'.getD a 0 := by
    intro w' hw' s d
    have houter : (getPortfolioPaths T w').getD s [] =
        (T.getD s []).map (fun day =>
          (List.zipWith (fun x wa => x * wa) day w').sum) := by
      unfold getPortfolioPaths
      exact List.getD_map T [] _
    have hinner : ((T.getD s []).map (fun day =>
        (List.zipWith (fun x wa => x * wa) day w').sum)).getD d 0 =
        (List.zipWith (fun x wa => x * wa) ((T.getD s []).getD d []) w').sum := by
      exact List.getD_map (T.getD s []) [] _
    rw [houter, hinner]
    by_cases hs : s < T.length
    · rw [List.getD_eq_getElem T [] hs]
      by_cases hd : d < T[s].length
      · rw [List.getD_eq_getElem T[s] [] hd]
        have hday : T[s][d].length = weights.length :=
          hT T[s] (List.getElem_mem hs) T[s][d] (List.getElem_mem hd)
        rw [zipWith_sum_eq_range _ _ _ 0 0 (by rw [hday, hw']) (by ring)]
        rw [hday]
      · rw [List.getD_eq_default T[s] [] (Nat.le_of_not_lt hd)]
        symm
        apply Finset.sum_eq_zero
        intro a ha
        simp
    · rw [List.getD_eq_default T [] (Nat.le_of_not_lt hs)]
      simp only [List.getD_nil]
      symm
      apply Finset.sum_eq_zero
      intro a ha
      simp
  by_cases hclose : npIsClose weights.sum 1
  · refine ⟨weights, ?_, fun _ => rfl, ?_, ?_, hdot weights rfl⟩
    · unfold initWeights
      rw [if_neg hlen2, if_neg (by simpa using hclose)]
    · intro hfalse; rw [hfalse] at hclose; cases hclose
    · have h2 := hclose
      unfold npIsClose at h2
      simpa using of_decide_eq_true h2
  · have hw' : initWeights tickers weights =
        some (weights.map (fun w => w / weights.sum)) := by
      unfold initWeights
      rw [if_neg hlen2, if_pos (by simpa using hclose)]
    have hsum1 : (weights.map (fun w => w / weights.sum)).sum = 1 := by
      rw [sum_map_div, div_self hsum]
    refine ⟨weights.map (fun w => w / weights.sum), hw', ?_, fun _ => hsum1,
      ?_, hdot _ (by simp)⟩
    · intro h1
      exfalso
      apply hclose
      unfold npIsClose
      rw [h1]
      norm_num
    · rw [hsum1]
      norm_num

/-- Witness for C7: the spec's own example, weights `[2, 2]` over two tickers
normalizing to `[1/2, 1/2]`, applied to a concrete one-day tensor. -/
theorem portfolioProcessor_normalizes_witness :
    initWeights ["A", "B"] [2, 2] = some [1/2, 1/2] ∧
    (∃ w', initWeights ["A", "B"] [2, 2] = some w' ∧
      (List.sum [(2 : ℚ), 2] = 1 → w' = [2, 2]) ∧
      (npIsClose (List.sum [(2 : ℚ), 2]) 1 = false → w'.sum = 1) ∧
      |w'.sum - 1| ≤ 1 / 100000000 + 1 / 100000 ∧
      (∀ s d, ((getPortfolioPaths [[[3, 5]]] w').getD s []).getD d 0 =
        ∑ a ∈ Finset.range (List.length [(2 : ℚ), 2]),
          ((([[[3, 5]]] : List (List (List ℚ))).getD s []).getD d []).getD a 0 *
            w'.getD a 0)) :=
  ⟨by norm_num [initWeights, npIsClose, abs],
    portfolioProcessor_normalizes ["A", "B"] [2, 2] [[[3, 5]]]
      (by norm_num) (by norm_num)
      (by intro path hpath day hday
          fin_cases hpath
          fin_cases hday
          rfl)⟩

/-!
`StressTester.run_stress_tests` of `src/simulator/utils/processor.py`, for one
scenario.  The fetched window (`data.pct_change().dropna()`) is modelled as an
association list from the tickers actually present to their daily-return
column (rows in date order); data fetching itself is an external collaborator.
-/

/-- Columns of the fetched scenario window (`returns.columns`). -/
def presentTickers (window : List (String × List ℚ)) : List String :=
  window.map Prod.fst

/-- Daily-return column of one ticker (`returns[t]`). -/
def windowCol (window : List (String × List ℚ)) (t : String) : List ℚ :=
  ((window.find? (fun c => c.1 = t)).map Prod.snd).getD []

/-- `weight_map = dict(zip(tickers, weights))`; tickers are unique (a set in
the source), so first-match lookup agrees with the dict. -/
def weightMap (tickers : List String) (weights : List ℚ) (t : String) : ℚ :=
  ((tickers.zip weights).lookup t).getD 0

/-- `valid_tickers = [t for t in tickers if t in returns.columns]`. -/
def validTickers (tickers : List String) (window : List (String × List ℚ)) :
    List String :=
  tickers.filter (fun t => (presentTickers window).contains t)

/-- `orig_w = np.array([weight_map[t] for t in valid_tickers])`. -/
def stressOrigWeights (tickers : List String) (weights : List ℚ)
    (window : List (String × List ℚ)) : List ℚ :=
  (validTickers tickers window).map (weightMap tickers weights)

/-- `new_w = orig_w / orig_w.sum()`. -/
def stressNewWeights (tickers : List String) (weights : List ℚ)
    (window : List (String × List ℚ)) : List ℚ :=
  (stressOrigWeights tickers weights window).map
    (fun w => w / (stressOrigWeights tickers weights window).sum)

/-- The scenario's portfolio result:
`portfolio_performance = (returns[valid_tickers] * new_w).sum(axis=1)` and
`(1 + portfolio_performance).cumprod().iloc[-1] - 1`, over `nRows` window
rows. -/
def scenarioPortfolioReturn (tickers : List String) (weights : List ℚ)
    (window : List (String × List ℚ)) (nRows : ℕ) : ℚ :=
  let valid := validTickers tickers window
  let nw := stressNewWeights tickers weights window
  let perf := (List.range nRows).map (fun r =>
    (List.zipWith (fun t w => (windowCol window t).getD r 0 * w) valid nw).sum)
  perf.foldl (fun acc x => acc * (1 + x)) 1 - 1

theorem foldl_mul_one_add (perf : List ℚ) (c : ℚ) :
    perf.foldl (fun acc x => acc * (1 + x)) c =
      c * (perf.map (fun x => 1 + x)).prod := by
  induction perf generalizing c with
  | nil => simp
  | cons p ps ih => rw [List.foldl_cons, ih, List.map_cons, List.prod_cons]; ring

theorem map_range_prod (f : ℕ → ℚ) (n : ℕ) :
    ((List.range n).map f).prod = ∏ r ∈ Finset.range n, f r := by
  induction n with
  | zero => rfl
  | succ k ih =>
    rw [List.range_succ, List.map_append, List.prod_append,
      Finset.prod_range_succ, ih]
    simp

/-- C8: for a scenario window holding a subset of the portfolio tickers, the
stress tester uses only the present tickers, rescales their original weights
to sum to 1 over that subset (each effective weight is the original weight
divided by the present subset's original-weight sum), and the scenario's
portfolio return is the cumulative product of `1 + weighted daily return`
minus 1. -/
theorem stressTester_dynamic_reweighting (tickers : List String)
    (weights : List ℚ) (window : List (String × List ℚ)) (nRows : ℕ)
    (hsum : (stressOrigWeights tickers weights window).sum ≠ 0) :
    (stressNewWeights tickers weights window).sum = 1 ∧
      (∀ i, i < (validTickers tickers window).length →
        (stressNewWeights tickers weights window).getD i 0 =
          weightMap tickers weights ((validTickers tickers window).getD i "") /
            (stressOrigWeights tickers weights window).sum) ∧
      scenarioPortfolioReturn tickers weights window nRows =
        (∏ r ∈ Finset.range nRows,
          (1 + ∑ i ∈ Finset.range (validTickers tickers window).length,
            (windowCol window
                ((validTickers tickers window).getD i "")).getD r 0 *
              (stressNewWeights tickers weights window).getD i 0)) - 1 := by
  set valid := validTickers tickers window with hvalid
  set ow := stressOrigWeights tickers weights window with how
  set nw := stressNewWeights tickers weights window with hnw
  have howlen : ow.length = valid.length := by rw [how]; simp [stressOrigWeights]
  have hnwlen : nw.length = valid.length := by
    rw [hnw]; simp [stressNewWeights]; exact howlen
  have hsum1 : nw.sum = 1 := by
    rw [hnw]
    show (ow.map (fun w => w / ow.sum)).sum = 1
    rw [sum_map_div, div_self hsum]
  have hgetD : ∀ i, i < valid.length →
      nw.getD i 0 = weightMap tickers weights (valid.getD i "") / ow.sum := by
    intro i hi
    have hiow : i < ow.length := by rw [howlen]; exact hi
    have e1 : nw.getD i 0 = ow.getD i 0 / ow.sum := by
      rw [hnw]
      show (ow.map (fun w => w / ow.sum)).getD i 0 = _
      rw [getD_map_div]
    have e2 : ow.getD i 0 = weightMap tickers weights (valid.getD i "") := by
      rw [how]
      show (valid.map (weightMap tickers weights)).getD i 0 = _
      rw [getD_map_lt (weightMap tickers weights) valid "" 0 i hi]
    rw [e1, e2]
  refine ⟨hsum1, hgetD, ?_⟩
  show (((List.range nRows).map (fun r =>
      (List.zipWith (fun t w => (windowCol window t).getD r 0 * w)
        valid nw).sum)).foldl (fun acc x => acc * (1 + x)) 1) - 1 = _
  rw [foldl_mul_one_add, one_mul, List.map_map]
  have hmap : ((fun x => 1 + x) ∘ (fun r =>
      (List.zipWith (fun t w => (windowCol window t).getD r 0 * w)
        valid nw).sum)) = (fun r => 1 + ∑ i ∈ Finset.range valid.length,
      (windowCol window (valid.getD i "")).getD r 0 * nw.getD i 0) := by
    funext r
    show 1 + _ = 1 + _
    congr 1
    exact zipWith_sum_eq_range
      (fun t w => (windowCol window t).getD r 0 * w) valid nw "" 0
      hnwlen.symm (mul_zero _)
  rw [hmap, map_range_prod]

/-- Witness for C8: the spec's example — weights `[0.6, 0.4]` on tickers
`["A", "B"]` with only `B` present in the window gives `B` the effective
weight `1.0` (not `0.4`), and the scenario return is the cumulative product
of `1 + weighted daily return` minus 1. -/
theorem stressTester_dynamic_reweighting_witness :
    stressNewWeights ["A", "B"] [3/5, 2/5] [("B", [1/10])] = [1] ∧
    scenarioPortfolioReturn ["A", "B"] [3/5, 2/5] [("B", [1/10])] 1 = 1/10 ∧
    ((stressNewWeights ["A", "B"] [3/5, 2/5] [("B", [1/10])]).sum = 1 ∧
      (∀ i, i < (validTickers ["A", "B"] [("B", [1/10])]).length →
        (stressNewWeights ["A", "B"] [3/5, 2/5] [("B", [1/10])]).getD i 0 =
          weightMap ["A", "B"] [3/5, 2/5]
              ((validTickers ["A", "B"] [("B", [1/10])]).getD i "") /
            (stressOrigWeights ["A", "B"] [3/5, 2/5] [("B", [1/10])]).sum) ∧
      scenarioPortfolioReturn ["A", "B"] [3/5, 2/5] [("B", [1/10])] 1 =
        (∏ r ∈ Finset.range 1,
          (1 + ∑ i ∈ Finset.range
              (validTickers ["A", "B"] [("B", [1/10])]).length,
            (windowCol [("B", [1/10])]
                ((validTickers ["A", "B"] [("B", [1/10])]).getD i "")).getD r 0 *
              (stressNewWeights ["A", "B"] [3/5, 2/5]
                [("B", [1/10])]).getD i 0)) - 1) :=
  have hAB : ("A" : String) ≠ "B" := by decide
  have hBB : (decide (("B" : String) = "B")) = true := by decide
  have hBA : ((("B" : String) == "A")) = false := by decide
  ⟨by norm_num [stressNewWeights, stressOrigWeights, validTickers,
      presentTickers, weightMap, List.filter_cons, List.lookup, hAB, hBB, hBA],
    by norm_num [scenarioPortfolioReturn, stressNewWeights, stressOrigWeights,
      validTickers, presentTickers, weightMap, windowCol, List.filter_cons,
      List.lookup, List.find?, List.range_succ, hAB, hBB, hBA],
    stressTester_dynamic_reweighting ["A", "B"] [3/5, 2/5] [("B", [1/10])] 1
      (by norm_num [stressOrigWeights, validTickers, presentTickers,
        weightMap, List.filter_cons, List.lookup, hAB, hBB, hBA])⟩

/-!
The three path generators of `src/simulator/engine/`, over `ℝ`.  The asset
columns selected by `self.data[self.tickers]` are columns `0, ..., nA - 1` of
the price matrix.  Random draws from numpy's global generator are supplied by
oracle functions (simulation, day, asset) ↦ drawn value.
-/

/-- `np.log(asset_data / asset_data.shift(1)).dropna()`: daily log-returns of
the first `nA` columns (row `t` holds `log(p_t / p_(t-1))`; the leading NaN
row is dropped). -/
noncomputable def logReturns (nA : ℕ) (prices : List (List ℝ)) :
    List (List ℝ) :=
  (prices.zip prices.tail).map (fun pr =>
    (List.range nA).map (fun a => Real.log (pr.2.getD a 0 / pr.1.getD a 0)))

/-- `asset_data.pct_change().dropna()`: daily simple returns of the first
`nA` columns. -/
noncomputable def pctChange (nA : ℕ) (prices : List (List ℝ)) :
    List (List ℝ) :=
  (prices.zip prices.tail).map (fun pr =>
    (List.range nA).map (fun a => pr.2.getD a 0 / pr.1.getD a 0 - 1))

/-- pandas `.mean()` of column `a`. -/
noncomputable def colMean (rows : List (List ℝ)) (a : ℕ) : ℝ :=
  (rows.map (fun r => r.getD a 0)).sum / rows.length

/-- pandas `.cov()` entry (`ddof = 1`) for columns `i`, `j`. -/
noncomputable def colCov (rows : List (List ℝ)) (i j : ℕ) : ℝ :=
  ((rows.map (fun r =>
    (r.getD i 0 - colMean rows i) * (r.getD j 0 - colMean rows j))).sum) /
    ((rows.length : ℝ) - 1)

/-- pandas `.std()` (`ddof = 1`) of column `a`. -/
noncomputable def colStd (rows : List (List ℝ)) (a : ℕ) : ℝ :=
  Real.sqrt (colCov rows a a)

/-- `returns.cov().values` as an `nA × nA` matrix. -/
noncomputable def covMatrix (nA : ℕ) (rows : List (List ℝ)) :
    List (List ℝ) :=
  (List.range nA).map (fun i => (List.range nA).map (fun j => colCov rows i j))

/-- Sub-diagonal entries of the next Cholesky row: given the rows built so
far, `L[i][j] = (A[i][j] - Σ_(k<j) L[i][k]·L[j][k]) / L[j][j]`. -/
noncomputable def cholSubdiag (Arow : List ℝ) :
    List (List ℝ) → List ℝ → List ℝ
  | [], acc => acc
  | Lj :: rest, acc =>
    cholSubdiag Arow rest (acc ++
      [(Arow.getD acc.length 0 -
          (List.zipWith (fun a b => a * b) acc Lj).sum) / Lj.getD acc.length 0])

/-- One row step of the Cholesky–Banachiewicz factorization: the pivot is
`d = A[i][i] - Σ_(k<i) L[i][k]²`; LAPACK `dpotrf` — and hence
`np.linalg.cholesky` — fails with `LinAlgError` exactly when some pivot is
not strictly positive (leading minor not positive definite). -/
noncomputable def choleskyStep (n : ℕ) (acc : Option (List (List ℝ)))
    (Arow : List ℝ) : Option (List (List ℝ)) :=
  match acc with
  | none => none
  | some prev =>
    let sub := cholSubdiag Arow prev []
    let d := Arow.getD prev.length 0 - (sub.map (fun x => x ^ 2)).sum
    if 0 < d then
      some (prev ++ [(sub ++ [Real.sqrt d]) ++
        List.replicate (n - prev.length - 1) 0])
    else none

/-- `np.linalg.cholesky`, modelled row by row; `none` models the
`LinAlgError` raised on a matrix that is not positive definite. -/
noncomputable def cholesky (A : List (List ℝ)) : Option (List (List ℝ)) :=
  A.foldl (choleskyStep A.length) (some [])

/-- Column-wise cumulative product (`np.cumprod(..., axis=0)`) with running
product `acc`. -/
noncomputable def cumprodFrom (acc : List ℝ) : List (List ℝ) → List (List ℝ)
  | [] => []
  | r :: rs =>
    List.zipWith (fun a b => a * b) acc r ::
      cumprodFrom (List.zipWith (fun a b => a * b) acc r) rs

/-- `np.cumprod(growth, axis=0)` for a (days × nA) growth matrix. -/
noncomputable def cumprodRows (nA : ℕ) (m : List (List ℝ)) :
    List (List ℝ) :=
  cumprodFrom (List.replicate nA 1) m

/-- `MonteCarloSimulator.run` of `src/simulator/engine/monte_carlo.py`:
per path, daily growth `exp(drift + correlated shock)` with
`drift = avg_returns` and `correlated_shocks = random_shocks @ L.T`, then the
cumulative product along days; `none` models the `LinAlgError` of
`np.linalg.cholesky` on a non-positive-definite covariance. -/
noncomputable def monteCarloRun (nA : ℕ) (prices : List (List ℝ))
    (shock : ℕ → ℕ → ℕ → ℝ) (nSims days : ℕ) :
    Option (List (List (List ℝ))) :=
  (cholesky (covMatrix nA (logReturns nA prices))).map (fun L =>
    (List.range nSims).map (fun s =>
      cumprodRows nA ((List.range days).map (fun d =>
        (List.range nA).map (fun a =>
          Real.exp (colMean (logReturns nA prices) a +
            (List.zipWith (fun x y => x * y)
              ((List.range nA).map (shock s d)) (L.getD a [])).sum))))))

/-- `GeometricBrownianSimulator.run` of
`src/simulator/engine/geometric_brownian.py` (historical bootstrap): per path,
draw `days` historical return rows with replacement
(`np.random.choice(len(returns), size=days)` is the oracle `idx`) and take
the cumulative product of `1 + return`. -/
noncomputable def bootstrapRun (nA : ℕ) (prices : List (List ℝ))
    (idx : ℕ → ℕ → ℕ) (nSims days : ℕ) : List (List (List ℝ)) :=
  (List.range nSims).map (fun s =>
    cumprodRows nA ((List.range days).map (fun d =>
      ((pctChange nA prices).getD (idx s d) []).map (fun r => 1 + r))))

/-- `JumpDiffusionSimulator.run` of `src/simulator/engine/jump_diffusion.py`:
daily log-return `(mu - sigma²/2) + sigma·shock` plus the compound Poisson
overlay `count · jump`, where `count` is the Poisson(`λ/252`) draw and the
jump draw `np.random.normal(j_mu, j_sigma)` is `jMu + jSigma · jumpZ` for a
standard-normal `jumpZ`. -/
noncomputable def jumpDiffusionRun (nA : ℕ) (prices : List (List ℝ))
    (jMu jSigma : ℝ) (shock : ℕ → ℕ → ℕ → ℝ) (count : ℕ → ℕ → ℕ → ℕ)
    (jumpZ : ℕ → ℕ → ℕ → ℝ) (nSims days : ℕ) : List (List (List ℝ)) :=
  (List.range nSims).map (fun s =>
    cumprodRows nA ((List.range days).map (fun d =>
      (List.range nA).map (fun a =>
        Real.exp ((colMean (logReturns nA prices) a -
            colStd (logReturns nA prices) a ^ 2 / 2 +
            colStd (logReturns nA prices) a * shock s d a) +
          (count s d a : ℝ) * (jMu + jSigma * jumpZ s d a))))))

/-- Shape-and-positivity postcondition of the path-generator contract: the
tensor has shape exactly (nSims, days, nA) and every entry is a positive
growth factor. -/
def tensorOK (nSims days nA : ℕ) (T : List (List (List ℝ))) : Prop :=
  T.length = nSims ∧ ∀ p ∈ T, p.length = days ∧
    ∀ r ∈ p, r.length = nA ∧ ∀ x ∈ r, 0 < x

theorem zipWith_mul_pos : ∀ (a b : List ℝ), (∀ x ∈ a, 0 < x) →
    (∀ x ∈ b, 0 < x) → ∀ x ∈ List.zipWith (fun p q => p * q) a b, 0 < x
  | [], _, _, _ => by simp
  | _ :: _, [], _, _ => by simp
  | p :: ps, q :: qs, ha, hb => by
    intro x hx
    rcases List.mem_cons.mp hx with rfl | hx2
    · exact mul_pos (ha p (by simp)) (hb q (by simp))
    · exact zipWith_mul_pos ps qs (fun y hy => ha y (by simp [hy]))
        (fun y hy => hb y (by simp [hy])) x hx2

theorem cumprodFrom_ok (nA : ℕ) :
    ∀ (m : List (List ℝ)) (acc : List ℝ),
      acc.length = nA → (∀ x ∈ acc, 0 < x) →
      (∀ r ∈ m, r.length = nA ∧ ∀ x ∈ r, 0 < x) →
      (cumprodFrom acc m).length = m.length ∧
        ∀ r ∈ cumprodFrom acc m, r.length = nA ∧ ∀ x ∈ r, 0 < x
  | [], acc, _, _, _ => by simp [cumprodFrom]
  | r :: rs, acc, hlen, hpos, hm => by
    obtain ⟨hr1, hr2⟩ := hm r (by simp)
    have hlen2 : (List.zipWith (fun a b => a * b) acc r).length = nA := by
      rw [List.length_zipWith, hlen, hr1]; exact Nat.min_self nA
    have hpos2 := zipWith_mul_pos acc r hpos hr2
    obtain ⟨ih1, ih2⟩ := cumprodFrom_ok nA rs _ hlen2 hpos2
      (fun r2 hr2m => hm r2 (by simp [hr2m]))
    refine ⟨by simp [cumprodFrom, ih1], ?_⟩
    intro r2 hr2m
    rcases List.mem_cons.mp hr2m with rfl | h
    · exact ⟨hlen2, hpos2⟩
    · exact ih2 r2 h

theorem cumprodFrom_replicate (c : ℝ) :
    ∀ (days : ℕ) (aInit : ℝ),
      cumprodFrom [aInit] (List.replicate days [c]) =
        (List.range days).map (fun d => [aInit * c ^ (d + 1)])
  | 0, aInit => rfl
  | Nat.succ k, aInit => by
    rw [List.replicate_succ]
    show List.zipWith (fun a b => a * b) [aInit] [c] ::
      cumprodFrom (List.zipWith (fun a b => a * b) [aInit] [c])
        (List.replicate k [c]) = _
    have hz : List.zipWith (fun a b => a * b) [aInit] [c] = [aInit * c] := rfl
    rw [hz, cumprodFrom_replicate c k (aInit * c),
      List.range_succ_eq_map, List.map_cons, List.map_map]
    refine congrArg₂ List.cons (by norm_num) ?_
    apply List.map_congr_left
    intro d hd
    show [aInit * c * c ^ (d + 1)] = [aInit * c ^ (d + 1 + 1)]
    rw [pow_succ (c) (d + 1)]
    ring_nf

theorem choleskyStep_some (n : ℕ) (prev : List (List ℝ)) (Arow : List ℝ) :
    choleskyStep n (some prev) Arow =
      (if 0 < Arow.getD prev.length 0 -
          ((cholSubdiag Arow prev []).map (fun x => x ^ 2)).sum
        then some (prev ++ [(cholSubdiag Arow prev [] ++
          [Real.sqrt (Arow.getD prev.length 0 -
            ((cholSubdiag Arow prev []).map (fun x => x ^ 2)).sum)]) ++
          List.replicate (n - prev.length - 1) 0])
        else none) := rfl

theorem foldl_choleskyStep_none (n : ℕ) (rows : List (List ℝ)) :
    rows.foldl (choleskyStep n) none = none := by
  induction rows with
  | nil => rfl
  | cons r rs ih => rw [List.foldl_cons]; exact ih

theorem foldl_choleskyStep_length (n : ℕ) :
    ∀ (rows : List (List ℝ)) (prev L : List (List ℝ)),
      rows.foldl (choleskyStep n) (some prev) = some L →
      L.length = prev.length + rows.length
  | [], prev, L, h => by
    rw [List.foldl_nil] at h
    rw [← Option.some_injective _ h]
    simp
  | r :: rs, prev, L, h => by
    rw [List.foldl_cons, choleskyStep_some] at h
    split_ifs at h with hd
    · have h2 := foldl_choleskyStep_length n rs _ L h
      rw [List.length_append] at h2
      rw [h2]
      simp
      omega
    · rw [foldl_choleskyStep_none] at h
      cases h

theorem cholesky_length {A L : List (List ℝ)} (h : cholesky A = some L) :
    L.length = A.length := by
  have h2 := foldl_choleskyStep_length A.length A [] L h
  simpa using h2

theorem colMean_const {rows : List (List ℝ)} {c : ℝ} (hne : rows ≠ [])
    (hconst : ∀ row ∈ rows, row.getD 0 0 = c) : colMean rows 0 = c := by
  unfold colMean
  have hmap : rows.map (fun r => r.getD 0 0) =
      List.replicate rows.length c := by
    refine List.eq_replicate.mpr ⟨by simp, ?_⟩
    intro b hb
    obtain ⟨r, hr, rfl⟩ := List.mem_map.mp hb
    exact hconst r hr
  rw [hmap, List.sum_replicate, nsmul_eq_mul]
  have hlen0 : rows.length ≠ 0 := by
    intro h0; exact hne (List.length_eq_zero.mp h0)
  have hlen : (rows.length : ℝ) ≠ 0 := Nat.cast_ne_zero.mpr hlen0
  field_simp

theorem colCov_const {rows : List (List ℝ)} {c : ℝ} (hne : rows ≠ [])
    (hconst : ∀ row ∈ rows, row.getD 0 0 = c) : colCov rows 0 0 = 0 := by
  unfold colCov
  have hmap : rows.map (fun r =>
      (r.getD 0 0 - colMean rows 0) * (r.getD 0 0 - colMean rows 0)) =
      List.replicate rows.length 0 := by
    refine List.eq_replicate.mpr ⟨by simp, ?_⟩
    intro b hb
    obtain ⟨r, hr, rfl⟩ := List.mem_map.mp hb
    rw [hconst r hr, colMean_const hne hconst]
    ring
  rw [hmap, List.sum_replicate]
  simp

theorem covMatrix_one (rows : List (List ℝ)) :
    covMatrix 1 rows = [[colCov rows 0 0]] := by
  norm_num [covMatrix, List.range_succ]

theorem cholesky_singleton_nonpos {c : ℝ} (hc : c ≤ 0) :
    cholesky [[c]] = none := by
  unfold cholesky
  rw [List.foldl_cons, List.foldl_nil, choleskyStep_some, if_neg]
  simp only [cholSubdiag, List.map_nil, List.sum_nil, List.length_nil]
  intro hpos
  simp only [List.getD_cons_zero] at hpos
  linarith

/-- A zero-variance single-asset calibration makes the sample covariance the
`1 × 1` zero matrix, whose Cholesky factorization fails, so the Monte Carlo
run raises instead of returning a tensor. -/
theorem monteCarloRun_singular {prices : List (List ℝ)} {c : ℝ}
    (hne : logReturns 1 prices ≠ [])
    (hconst : ∀ row ∈ logReturns 1 prices, row.getD 0 0 = c)
    (shock : ℕ → ℕ → ℕ → ℝ) (nSims days : ℕ) :
    monteCarloRun 1 prices shock nSims days = none := by
  unfold monteCarloRun
  rw [covMatrix_one, colCov_const hne hconst, cholesky_singleton_nonpos le_rfl]
  rfl

theorem tensorOK_of_rows (nSims days nA : ℕ) (M : ℕ → List (List ℝ))
    (hM : ∀ s, (M s).length = days ∧
      ∀ r ∈ M s, r.length = nA ∧ ∀ x ∈ r, 0 < x) :
    tensorOK nSims days nA
      ((List.range nSims).map (fun s => cumprodRows nA (M s))) := by
  refine ⟨by simp, ?_⟩
  intro p hp
  obtain ⟨s, hs, rfl⟩ := List.mem_map.mp hp
  obtain ⟨h1, h2⟩ := hM s
  obtain ⟨hl, hrows⟩ := cumprodFrom_ok nA (M s) (List.replicate nA 1)
    (by simp)
    (by intro x hx; rw [List.eq_of_mem_replicate hx]; norm_num) h2
  exact ⟨hl.trans h1, hrows⟩

theorem pctChange_rows (nA : ℕ) (prices : List (List ℝ))
    (hpos : ∀ row ∈ prices, ∀ a, a < nA → 0 < row.getD a 0) :
    ∀ r ∈ pctChange nA prices, r.length = nA ∧ ∀ x ∈ r, 0 < 1 + x := by
  intro r hr
  unfold pctChange at hr
  obtain ⟨pr, hpr, rfl⟩ := List.mem_map.mp hr
  obtain ⟨h1, h2⟩ := List.of_mem_zip hpr
  refine ⟨by simp, ?_⟩
  intro x hx
  obtain ⟨a, ha, rfl⟩ := List.mem_map.mp hx
  have ha2 : a < nA := List.mem_range.mp ha
  have hp1 : 0 < pr.1.getD a 0 := hpos pr.1 h1 a ha2
  have hp2 : 0 < pr.2.getD a 0 := hpos pr.2 (List.mem_of_mem_tail h2) a ha2
  have hdiv : 0 < pr.2.getD a 0 / pr.1.getD a 0 := div_pos hp2 hp1
  linarith

/-- C5 (amended): with a nonempty asset list, positive simulation counts and
horizons, and a positive price window of at least two rows, the bootstrap
generator returns a tensor of shape (nSims, days, nA) of positive finite
growth factors; the Monte Carlo and Jump-Diffusion generators do so provided
the window has at least three rows (two return observations, so that the
sample statistics are defined) and, for Monte Carlo, the sample covariance
admits a Cholesky factorization — on a zero-variance window Monte Carlo
raises a linear-algebra error instead of returning a tensor (see the
counterexample). -/
theorem engines_shape_positive (nA nSims days : ℕ) (prices : List (List ℝ))
    (idx : ℕ → ℕ → ℕ) (shock : ℕ → ℕ → ℕ → ℝ) (count : ℕ → ℕ → ℕ → ℕ)
    (jumpZ : ℕ → ℕ → ℕ → ℝ) (jMu jSigma : ℝ)
    (hA : 0 < nA) (hS : 0 < nSims) (hD : 0 < days)
    (hrows : 2 ≤ prices.length)
    (hpos : ∀ row ∈ prices, ∀ a, a < nA → 0 < row.getD a 0)
    (hidx : ∀ s d, idx s d < (pctChange nA prices).length) :
    tensorOK nSims days nA (bootstrapRun nA prices idx nSims days) ∧
      (∀ L, cholesky (covMatrix nA (logReturns nA prices)) = some L →
        ∃ T, monteCarloRun nA prices shock nSims days = some T ∧
          tensorOK nSims days nA T) ∧
      (3 ≤ prices.length →
        tensorOK nSims days nA
          (jumpDiffusionRun nA prices jMu jSigma shock count jumpZ
            nSims days)) := by
  refine ⟨?_, ?_, ?_⟩
  · unfold bootstrapRun
    apply tensorOK_of_rows
    intro s
    refine ⟨by simp, ?_⟩
    intro r hr
    obtain ⟨d, hd, rfl⟩ := List.mem_map.mp hr
    have hmem : (pctChange nA prices).getD (idx s d) [] ∈ pctChange nA prices := by
      rw [List.getD_eq_getElem _ _ (hidx s d)]
      exact List.getElem_mem _
    obtain ⟨hlen, hpos1⟩ := pctChange_rows nA prices hpos _ hmem
    refine ⟨by rw [List.length_map]; exact hlen, ?_⟩
    intro x hx
    obtain ⟨y, hy, rfl⟩ := List.mem_map.mp hx
    exact hpos1 y hy
  · intro L hL
    unfold monteCarloRun
    rw [hL, Option.map_some']
    refine ⟨_, rfl, ?_⟩
    apply tensorOK_of_rows
    intro s
    refine ⟨by simp, ?_⟩
    intro r hr
    obtain ⟨d, hd, rfl⟩ := List.mem_map.mp hr
    refine ⟨by simp, ?_⟩
    intro x hx
    obtain ⟨a, ha, rfl⟩ := List.mem_map.mp hx
    exact Real.exp_pos _
  · intro hrows3
    unfold jumpDiffusionRun
    apply tensorOK_of_rows
    intro s
    refine ⟨by simp, ?_⟩
    intro r hr
    obtain ⟨d, hd, rfl⟩ := List.mem_map.mp hr
    refine ⟨by simp, ?_⟩
    intro x hx
    obtain ⟨a, ha, rfl⟩ := List.mem_map.mp hx
    exact Real.exp_pos _

/-- C5 counterexample: the constant positive window `[[1], [1], [1]]` (three
rows, one asset) satisfies the claim's hypotheses, but the Monte Carlo run
returns no tensor at all — the log-returns have zero variance, so the sample
covariance matrix is `[[0]]` and `np.linalg.cholesky` raises `LinAlgError`. -/
theorem engines_shape_positive_counterexample :
    2 ≤ ([[1], [1], [1]] : List (List ℝ)).length ∧
      (∀ row ∈ ([[1], [1], [1]] : List (List ℝ)),
        ∀ a, a < 1 → 0 < row.getD a 0) ∧
      monteCarloRun 1 [[1], [1], [1]] (fun _ _ _ => 0) 500 30 = none := by
  refine ⟨by norm_num, ?_, ?_⟩
  · intro row hrow a ha
    interval_cases a
    fin_cases hrow <;> norm_num
  · have hconst0 : ∀ row ∈ logReturns 1 [[1], [1], [1]],
        row.getD 0 0 = (0 : ℝ) := by
      intro row hrow
      norm_num [logReturns, List.range_succ] at hrow
      rcases hrow with rfl | rfl <;> norm_num
    exact monteCarloRun_singular (by simp [logReturns]) hconst0 _ 500 30

/-- Witness for the amended C5 at the two-row window `[[1], [2]]` with one
asset. -/
theorem engines_shape_positive_witness :
    tensorOK 500 30 1 (bootstrapRun 1 [[1], [2]] (fun _ _ => 0) 500 30) ∧
      (∀ L, cholesky (covMatrix 1 (logReturns 1 [[1], [2]])) = some L →
        ∃ T, monteCarloRun 1 [[1], [2]] (fun _ _ _ => 0) 500 30 = some T ∧
          tensorOK 500 30 1 T) ∧
      (3 ≤ ([[1], [2]] : List (List ℝ)).length →
        tensorOK 500 30 1
          (jumpDiffusionRun 1 [[1], [2]] (-1/20) (1/10) (fun _ _ _ => 0)
            (fun _ _ _ => 0) (fun _ _ _ => 0) 500 30)) :=
  engines_shape_positive 1 500 30 [[1], [2]] (fun _ _ => 0) (fun _ _ _ => 0)
    (fun _ _ _ => 0) (fun _ _ _ => 0) (-1/20) (1/10)
    (by norm_num) (by norm_num) (by norm_num) (by norm_num)
    (by intro row hrow a ha
        interval_cases a
        fin_cases hrow <;> norm_num)
    (by intro s d
        norm_num [pctChange])

/-- C6 (amended): on a single-asset calibration whose historical log-returns
have zero variance (all equal to `μ`) and with zero jump intensity (a
`Poisson(0)` count is surely zero), the Jump-Diffusion generator produces,
for every simulation and day, exactly the deterministic drift value
`exp(μ · day)`.  The Monte Carlo generator, by contrast, does not return a
path on such a calibration: the Cholesky factorization of the zero covariance
matrix raises (see the counterexample). -/
theorem jumpDiffusion_deterministic_drift (prices : List (List ℝ)) (μ : ℝ)
    (jMu jSigma : ℝ) (shock jumpZ : ℕ → ℕ → ℕ → ℝ) (count : ℕ → ℕ → ℕ → ℕ)
    (nSims days : ℕ)
    (hne : logReturns 1 prices ≠ [])
    (hconst : ∀ row ∈ logReturns 1 prices, row.getD 0 0 = μ)
    (hcount : ∀ s d a, count s d a = 0) :
    ∀ s, s < nSims → ∀ d, d < days →
      ((((jumpDiffusionRun 1 prices jMu jSigma shock count jumpZ nSims
        days).getD s []).getD d []).getD 0 0) = Real.exp (μ * (d + 1)) := by
  intro s hs d hd
  have hmu : colMean (logReturns 1 prices) 0 = μ := colMean_const hne hconst
  have hsig : colStd (logReturns 1 prices) 0 = 0 := by
    unfold colStd
    rw [colCov_const hne hconst, Real.sqrt_zero]
  have hinner : ∀ s2, ((List.range days).map (fun d2 =>
      (List.range 1).map (fun a =>
        Real.exp ((colMean (logReturns 1 prices) a -
            colStd (logReturns 1 prices) a ^ 2 / 2 +
            colStd (logReturns 1 prices) a * shock s2 d2 a) +
          (count s2 d2 a : ℝ) * (jMu + jSigma * jumpZ s2 d2 a))))) =
      List.replicate days [Real.exp μ] := by
    intro s2
    refine List.eq_replicate.mpr ⟨by simp, ?_⟩
    intro b hb
    obtain ⟨d2, hd2, rfl⟩ := List.mem_map.mp hb
    have : (List.range 1) = [0] := rfl
    rw [this, List.map_cons, List.map_nil]
    rw [hmu, hsig, hcount s2 d2 0]
    norm_num
  unfold jumpDiffusionRun
  have houter : (List.range nSims).map (fun s2 =>
      cumprodRows 1 ((List.range days).map (fun d2 =>
        (List.range 1).map (fun a =>
          Real.exp ((colMean (logReturns 1 prices) a -
              colStd (logReturns 1 prices) a ^ 2 / 2 +
              colStd (logReturns 1 prices) a * shock s2 d2 a) +
            (count s2 d2 a : ℝ) * (jMu + jSigma * jumpZ s2 d2 a)))))) =
      (List.range nSims).map (fun _ =>
        (List.range days).map (fun d2 => [1 * Real.exp μ ^ (d2 + 1)])) := by
    apply List.map_congr_left
    intro s2 hs2
    rw [hinner s2]
    unfold cumprodRows
    have hrep : List.replicate 1 (1 : ℝ) = [1] := rfl
    rw [hrep, cumprodFrom_replicate]
  rw [houter]
  have h1 : ((List.range nSims).map (fun _ =>
      (List.range days).map (fun d2 => [1 * Real.exp μ ^ (d2 + 1)]))).getD s []
      = (List.range days).map (fun d2 => [1 * Real.exp μ ^ (d2 + 1)]) := by
    rw [List.getD_eq_getElem _ [] (by simpa using hs), List.getElem_map]
  have h2 : ((List.range days).map
      (fun d2 => [1 * Real.exp μ ^ (d2 + 1)])).getD d []
      = [1 * Real.exp μ ^ (d + 1)] := by
    rw [List.getD_eq_getElem _ [] (by simpa using hd), List.getElem_map,
      List.getElem_range]
  rw [h1, h2]
  show 1 * Real.exp μ ^ (d + 1) = Real.exp (μ * ((d : ℝ) + 1))
  rw [one_mul, ← Real.exp_nat_mul]
  congr 1
  push_cast
  ring

/-- C6 counterexample: on the window `[[1], [2], [4]]` the log-returns are
all `log 2` (zero variance), and the Monte Carlo generator — which the claim
says should produce the drift path `exp(μ · day)` — returns nothing at all:
the Cholesky factorization of the zero covariance matrix raises. -/
theorem monteCarlo_drift_counterexample :
    (∀ row ∈ logReturns 1 [[1], [2], [4]], row.getD 0 0 = Real.log 2) ∧
      monteCarloRun 1 [[1], [2], [4]] (fun _ _ _ => 0) 1 5 = none := by
  have hconst : ∀ row ∈ logReturns 1 [[1], [2], [4]],
      row.getD 0 0 = Real.log 2 := by
    intro row hrow
    norm_num [logReturns, List.range_succ] at hrow
    rcases hrow with rfl | rfl <;> norm_num
  exact ⟨hconst, monteCarloRun_singular (by simp [logReturns]) hconst _ 1 5⟩

/-- Witness for the amended C6 at the constant window `[[1], [1], [1]]`
(zero log-return, so the drift path is constantly `exp 0`). -/
theorem jumpDiffusion_deterministic_drift_witness :
    ((((jumpDiffusionRun 1 [[1], [1], [1]] (-1/20) (1/10) (fun _ _ _ => 0)
      (fun _ _ _ => 0) (fun _ _ _ => 0) 1 2).getD 0 []).getD 1 []).getD 0 0)
      = Real.exp (0 * ((1 : ℕ) + 1)) :=
  jumpDiffusion_deterministic_drift [[1], [1], [1]] 0 (-1/20) (1/10)
    (fun _ _ _ => 0) (fun _ _ _ => 0) (fun _ _ _ => 0) 1 2
    (by simp [logReturns])
    (by intro row hrow
        norm_num [logReturns, List.range_succ] at hrow
        rcases hrow with rfl | rfl <;> norm_num)
    (fun _ _ _ => rfl) 0 (by norm_num) 1 (by norm_num)

end Knot
